import Mathlib

/-!
Verification of the segment-planning word-frequency counter
(`wordfreq_threaded.py`).

The program is shallowly embedded: the input file is a `List Nat` of byte
values, file reads become list indexing, and the two boundary-adjustment
loops of `compute_segments` become fuel-indexed structural recursions (the
fuel `file.length + 2` provably dominates the number of iterations of the
Python loops, which advance an offset that is bounded by `file.length + 1`).
Fallible code (the `ValueError` raised for a non-positive segment count and
the `ValueError` raised by `f.seek(-1)` when the naive end bound is byte 0)
is modelled with `Except String`.
-/

/-- Embedding of `is_word_char`: ASCII letter, digit, or apostrophe,
decided on the raw byte value. -/
def is_word_char (b : Nat) : Bool :=
  (65 ≤ b && b ≤ 90) || (97 ≤ b && b ≤ 122) || (48 ≤ b && b ≤ 57) || b == 39

/-- The start-adjustment loop of `compute_segments`: while the byte just
before `s` exists and is a word byte, advance `s`.  A read past the end of
the file returns nothing, ending the loop, exactly like `f.read(1)` at EOF. -/
def adjStartF : Nat → List Nat → Nat → Nat
  | 0, _, s => s
  | fuel + 1, file, s =>
    match file[s - 1]? with
    | some b => if is_word_char b then adjStartF fuel file (s + 1) else s
    | none => s

def adjStart (file : List Nat) (s : Nat) : Nat :=
  adjStartF (file.length + 2) file s

/-- The end-adjustment loop of `compute_segments`: while the byte at
`e - 1` is a word byte, advance `e`, capping at the file size. -/
def adjEndF : Nat → List Nat → Nat → Nat
  | 0, _, e => e
  | fuel + 1, file, e =>
    match file[e - 1]? with
    | some b =>
      if is_word_char b then
        if file.length ≤ e + 1 then file.length else adjEndF fuel file (e + 1)
      else e
    | none => e

def adjEnd (file : List Nat) (e : Nat) : Nat :=
  adjEndF (file.length + 2) file e

/-- One iteration of the segment loop of `compute_segments` for worker
index `i`: naive bounds, start adjustment (guarded by `start > 0`), end
adjustment (guarded by `end < size`).  When the naive end is byte 0 the
Python code executes `f.seek(end - 1)`, i.e. `f.seek(-1)`, which raises;
this is the `"negative seek"` error. -/
def rawSeg (file : List Nat) (n approx i : Nat) : Except String (Nat × Nat) :=
  let size := file.length
  let start0 := i * approx
  let end0 := if i = n - 1 then size else (i + 1) * approx
  let start1 := if 0 < start0 then adjStart file start0 else start0
  if end0 < size then
    if end0 = 0 then Except.error "negative seek"
    else Except.ok (start1, adjEnd file end0)
  else Except.ok (start1, end0)

/-- The merge pass of `compute_segments`: the first segment is always
kept; a later zero-length segment is dropped, folding its end into the
previous kept end; a later non-zero-length segment has its start clamped
up to `lastEnd` and down to its own end. -/
def mergeAux : List (Nat × Nat) → Nat → List (Nat × Nat) → List (Nat × Nat)
  | mergedRev, _, [] => mergedRev.reverse
  | mergedRev, lastEnd, (s, e) :: tl =>
    match mergedRev with
    | [] => mergeAux [(s, e)] e tl
    | (ps, pe) :: mtl =>
      if e = s then mergeAux ((ps, max pe e) :: mtl) lastEnd tl
      else
        mergeAux ((if max s lastEnd > e then e else max s lastEnd, e) :: (ps, pe) :: mtl) e tl

def mergeSegs (segs : List (Nat × Nat)) : List (Nat × Nat) :=
  mergeAux [] 0 segs

/-- Embedding of `compute_segments(path, n)`.  The file is given by its
byte contents; `os.path.getsize` becomes `file.length`. -/
def compute_segments (file : List Nat) (n : Int) : Except String (List (Nat × Nat)) :=
  if n ≤ 0 then Except.error "Number of segments must be > 0"
  else if file.length = 0 then Except.ok [(0, 0)]
  else
    let N := n.toNat
    let approx := file.length / N
    match (List.range N).mapM (rawSeg file N approx) with
    | Except.error msg => Except.error msg
    | Except.ok segs => Except.ok (mergeSegs segs)

/-- Embedding of `f.seek(start); f.read(end - start)`. -/
def sliceRange (file : List Nat) (s e : Nat) : List Nat :=
  (file.drop s).take (e - s)

/-- Is `b` a UTF-8 continuation byte. -/
def isCont (b : Nat) : Bool := 128 ≤ b && b ≤ 191

/-- Valid range of the first continuation byte of a three-byte sequence
(excludes overlong encodings for `0xE0` and surrogates for `0xED`). -/
def cont3Ok (b b1 : Nat) : Bool :=
  if b = 224 then 160 ≤ b1 && b1 ≤ 191
  else if b = 237 then 128 ≤ b1 && b1 ≤ 159
  else isCont b1

/-- Valid range of the first continuation byte of a four-byte sequence
(excludes overlong encodings for `0xF0` and values above `U+10FFFF` for
`0xF4`). -/
def cont4Ok (b b1 : Nat) : Bool :=
  if b = 240 then 144 ≤ b1 && b1 ≤ 191
  else if b = 244 then 128 ≤ b1 && b1 ≤ 143
  else isCont b1

/-- Embedding of `buf.decode("utf-8", errors="ignore")`: a standard UTF-8
decoder where an invalid sequence is skipped (the maximal valid subpart is
consumed, per CPython), and a truncated final sequence is dropped. -/
def decodeUtf8Ignore : List Nat → List Char
  | [] => []
  | b :: rest =>
    if b < 128 then Char.ofNat b :: decodeUtf8Ignore rest
    else if b < 194 then decodeUtf8Ignore rest
    else if b < 224 then
      match rest with
      | [] => []
      | b1 :: rest1 =>
        if isCont b1 then
          Char.ofNat ((b - 192) * 64 + (b1 - 128)) :: decodeUtf8Ignore rest1
        else decodeUtf8Ignore (b1 :: rest1)
    else if b < 240 then
      match rest with
      | [] => []
      | b1 :: rest1 =>
        if cont3Ok b b1 then
          match rest1 with
          | [] => []
          | b2 :: rest2 =>
            if isCont b2 then
              Char.ofNat ((b - 224) * 4096 + (b1 - 128) * 64 + (b2 - 128)) ::
                decodeUtf8Ignore rest2
            else decodeUtf8Ignore (b2 :: rest2)
        else decodeUtf8Ignore (b1 :: rest1)
    else if b < 245 then
      match rest with
      | [] => []
      | b1 :: rest1 =>
        if cont4Ok b b1 then
          match rest1 with
          | [] => []
          | b2 :: rest2 =>
            if isCont b2 then
              match rest2 with
              | [] => []
              | b3 :: rest3 =>
                if isCont b3 then
                  Char.ofNat
                      ((b - 240) * 262144 + (b1 - 128) * 4096 + (b2 - 128) * 64 +
                        (b3 - 128)) ::
                    decodeUtf8Ignore rest3
                else decodeUtf8Ignore (b3 :: rest3)
            else decodeUtf8Ignore (b2 :: rest2)
        else decodeUtf8Ignore (b1 :: rest1)
    else decodeUtf8Ignore rest

/-- Embedding of `str.lower()` on the ASCII range: ASCII uppercase letters
are mapped to lowercase, every other character is kept.  (The full Unicode
case mapping of CPython also lowercases some non-ASCII letters; those map
neither to ASCII uppercase nor into the token alphabet used below, so the
properties proved here are insensitive to that difference, and every
concrete input considered is ASCII.) -/
def pyLower (c : Char) : Char :=
  if 65 ≤ c.toNat && c.toNat ≤ 90 then Char.ofNat (c.toNat + 32) else c

/-- A character matched by the token pattern of `WORD_RE`, namely
`[A-Za-z0-9']`. -/
def isTokenChar (c : Char) : Bool :=
  (65 ≤ c.toNat && c.toNat ≤ 90) || (97 ≤ c.toNat && c.toNat ≤ 122) ||
    (48 ≤ c.toNat && c.toNat ≤ 57) || c.toNat == 39

/-- Scanner for `WORD_RE.findall`: `cur` is the reversed current run of
token characters; a maximal run is emitted when a non-token character or
the end of the text is reached. -/
def findWordsAux : List Char → List Char → List (List Char)
  | [], cur => if cur.isEmpty then [] else [cur.reverse]
  | c :: rest, cur =>
    if isTokenChar c then findWordsAux rest (c :: cur)
    else if cur.isEmpty then findWordsAux rest []
    else cur.reverse :: findWordsAux rest []

/-- `WORD_RE.findall(text)`: the maximal runs of `[A-Za-z0-9']` characters. -/
def findWords (cs : List Char) : List (List Char) :=
  findWordsAux cs []

/-- Decode, lowercase, tokenize: the word list of
`WORD_RE.findall(buf.decode("utf-8", errors="ignore").lower())`. -/
def tokenize (buf : List Nat) : List String :=
  (findWords ((decodeUtf8Ignore buf).map pyLower)).map String.mk

/-- Add `k` to the count of `w`, inserting `w` at the end when absent:
the effect of `counter[w] += k` on a Python dict. -/
def incKey : List (String × Nat) → String → Nat → List (String × Nat)
  | [], w, k => [(w, k)]
  | (w1, c) :: tl, w, k =>
    if w1 = w then (w1, c + k) :: tl else (w1, c) :: incKey tl w k

/-- `Counter(words)`: count occurrences, keys in first-appearance order. -/
def counterOf (ws : List String) : List (String × Nat) :=
  ws.foldl (fun acc w => incKey acc w 1) []

/-- Embedding of `count_words_bytes`.  The `latin-1` fallback branch of
the source is dead code: `decode("utf-8", errors="ignore")` never raises,
so the `except` arm is unreachable and is not modelled. -/
def count_words_bytes (buf : List Nat) : List (String × Nat) :=
  counterOf (tokenize buf)

/-- `total.update(c)` on Counters: add every count of `c` into `total`. -/
def counterUpdate (total c : List (String × Nat)) : List (String × Nat) :=
  c.foldl (fun acc p => incKey acc p.1 p.2) total

/-- Embedding of `consolidate`: fold the per-segment counters into an
empty total, skipping falsy (empty) counters. -/
def consolidate (results : List (List (String × Nat))) : List (String × Nat) :=
  results.foldl (fun total c => if c.isEmpty then total else counterUpdate total c) []

/-- The count associated with `w` (absent keys count as zero). -/
def lookupCount (m : List (String × Nat)) (w : String) : Nat :=
  ((m.lookup w).getD 0)

/-- The comparison underlying
`sorted(final_counts.items(), key=lambda kv: (-kv[1], kv[0]))`:
`a` may precede `b` iff `a` has the larger count, or counts are equal and
the word of `a` is lexicographically no larger. -/
def kvLE (a b : String × Nat) : Bool :=
  (b.2 < a.2) || ((a.2 == b.2) && decide (a.1 ≤ b.1))

def insertSorted (a : String × Nat) : List (String × Nat) → List (String × Nat)
  | [] => [a]
  | b :: l => if kvLE a b then a :: b :: l else b :: insertSorted a l

/-- The sorted presentation order of the final table.  The sort keys
`(-count, word)` of distinct dict entries are distinct, so every correct
sorting algorithm (in particular the stable `sorted` of Python and this
insertion sort) produces the same list. -/
def sortCounts (l : List (String × Nat)) : List (String × Nat) :=
  l.foldr insertSorted []


/-- The total contribution of the entries of `c` whose key is `w`
(equals `lookupCount c w` when the keys of `c` are distinct). -/
def entrySum (c : List (String × Nat)) (w : String) : Nat :=
  (c.map (fun p => if p.1 = w then p.2 else 0)).sum

/-- `c` is a safe cut point of the file: within bounds, and either an
edge of the file or preceded by a non-word byte. -/
def CutPt (file : List Nat) (c : Nat) : Prop :=
  c ≤ file.length ∧
    (c = 0 ∨ c = file.length ∨ is_word_char (file.getD (c - 1) 0) = false)

/-- The ranges form a contiguous chain starting at `a` and ending at the
file size, every range is non-negative-length, and every range end is a
safe cut point. -/
def ChainFrom (file : List Nat) : Nat → List (Nat × Nat) → Prop
  | a, [] => a = file.length
  | a, (s, e) :: tl => s = a ∧ a ≤ e ∧ CutPt file e ∧ ChainFrom file e tl

/-- Relation between consecutive raw (pre-merge) segments: the end of the
left one is the start of the right one capped at the file size, and starts
are monotone. -/
def SegRel (file : List Nat) (a b : Nat × Nat) : Prop :=
  a.2 = min b.1 file.length ∧ a.1 ≤ b.1

/-- The value `rawSeg` produces for worker `i` when it does not fail. -/
def pureSeg (file : List Nat) (n approx i : Nat) : Nat × Nat :=
  (if 0 < i * approx then adjStart file (i * approx) else i * approx,
   if i = n - 1 then file.length else adjEnd file ((i + 1) * approx))

/-- Counterexample file for the no-split-word claim: `aa`, an invalid
UTF-8 byte `0x80`, then `bbb`. -/
def c1File : List Nat := [97, 97, 128, 98, 98, 98]

/-- A three-byte file (the bytes of `cat`). -/
def c3File : List Nat := [99, 97, 116]

/-- The bytes of the end-to-end example input
`the Cat sat on the MAT. the cat` + apostrophe + `s hat!`. -/
def c6File : List Nat :=
  [116, 104, 101, 32, 67, 97, 116, 32, 115, 97, 116, 32, 111, 110, 32, 116,
   104, 101, 32, 77, 65, 84, 46, 32, 116, 104, 101, 32, 99, 97, 116, 39,
   115, 32, 104, 97, 116, 33]

/-- The word `cat` followed by an apostrophe and `s`. -/
def catApos : String :=
  String.mk [Char.ofNat 99, Char.ofNat 97, Char.ofNat 116, Char.ofNat 39, Char.ofNat 115]

/-- The correct whole-file counts of the end-to-end example. -/
def c6Counts : List (String × Nat) :=
  [("the", 3), ("cat", 1), ("sat", 1), ("on", 1), ("mat", 1), (catApos, 1), ("hat", 1)]

/-- The plan the planner produces for the end-to-end example. -/
def c6Plan : List (Nat × Nat) := [(0, 12), (12, 24), (24, 38)]

/-- A small concrete list of per-segment counters (with one empty entry)
used as a witness input for the aggregation claim. -/
def c8Results : List (List (String × Nat)) :=
  [[("a", 2)], [], [("b", 1), ("a", 1)]]

theorem lookup_nil (v : String) : lookupCount [] v = 0 := rfl

theorem lookup_cons (w1 : String) (c : Nat) (tl : List (String × Nat)) (v : String) :
    lookupCount ((w1, c) :: tl) v = if v = w1 then c else lookupCount tl v := by
  by_cases h : v = w1
  · simp [lookupCount, List.lookup, h]
  · have hb : (v == w1) = false := beq_eq_false_iff_ne.mpr h
    simp [lookupCount, List.lookup, hb, h]

theorem entrySum_nil (w : String) : entrySum [] w = 0 := rfl

theorem entrySum_cons (a : String) (b : Nat) (tl : List (String × Nat)) (w : String) :
    entrySum ((a, b) :: tl) w = (if a = w then b else 0) + entrySum tl w := by
  simp [entrySum]

theorem lookup_incKey (m : List (String × Nat)) (w v : String) (k : Nat) :
    lookupCount (incKey m w k) v = lookupCount m v + (if w = v then k else 0) := by
  induction m with
  | nil =>
    by_cases h : w = v
    · subst h; simp [incKey, lookup_cons, lookup_nil]
    · have h2 : ¬ v = w := fun hc => h hc.symm
      simp [incKey, lookup_cons, lookup_nil, h, h2]
  | cons p tl ih =>
    obtain ⟨w1, c⟩ := p
    by_cases h1 : w1 = w
    · subst h1
      by_cases h2 : v = w1
      · subst h2; simp [incKey, lookup_cons]
      · have h3 : ¬ w1 = v := fun hc => h2 hc.symm
        simp [incKey, lookup_cons, h2, h3]
    · by_cases h2 : v = w1
      · subst h2
        have h3 : ¬ w = v := fun hc => h1 hc.symm
        simp [incKey, h1, lookup_cons, h3]
      · simp [incKey, h1, lookup_cons, h2, ih]

theorem lookup_counterUpdate (c : List (String × Nat)) :
    ∀ (total : List (String × Nat)) (w : String),
      lookupCount (counterUpdate total c) w = lookupCount total w + entrySum c w := by
  induction c with
  | nil => intro total w; simp [counterUpdate, entrySum]
  | cons p tl ih =>
    intro total w
    obtain ⟨a, b⟩ := p
    have step : counterUpdate total ((a, b) :: tl) = counterUpdate (incKey total a b) tl := rfl
    rw [step, ih, lookup_incKey, entrySum_cons]
    by_cases h : a = w
    · simp [h]
      omega
    · simp [h]

theorem entrySum_of_not_mem (c : List (String × Nat)) (w : String)
    (h : w ∉ c.map Prod.fst) : entrySum c w = 0 := by
  induction c with
  | nil => rfl
  | cons p tl ih =>
    obtain ⟨a, b⟩ := p
    simp only [List.map_cons, List.mem_cons] at h
    push_neg at h
    have h1 : ¬ a = w := fun hc => h.1 hc.symm
    rw [entrySum_cons, if_neg h1, ih h.2]

theorem entrySum_eq_lookup (c : List (String × Nat)) (w : String)
    (h : (c.map Prod.fst).Nodup) : entrySum c w = lookupCount c w := by
  induction c with
  | nil => rfl
  | cons p tl ih =>
    obtain ⟨w1, k⟩ := p
    simp only [List.map_cons, List.nodup_cons] at h
    rw [entrySum_cons, lookup_cons]
    by_cases h1 : w = w1
    · subst h1
      rw [if_pos rfl, if_pos rfl, entrySum_of_not_mem tl w h.1]
      omega
    · have h2 : ¬ w1 = w := fun hc => h1 hc.symm
      rw [if_neg h2, if_neg h1, Nat.zero_add, ih h.2]

theorem lookup_consolidate_fold (rs : List (List (String × Nat))) :
    ∀ (total : List (String × Nat)) (w : String),
      lookupCount
          (rs.foldl (fun t c => if c.isEmpty then t else counterUpdate t c) total) w =
        lookupCount total w + (rs.map (fun c => entrySum c w)).sum := by
  induction rs with
  | nil => intro total w; simp
  | cons c tl ih =>
    intro total w
    by_cases hc : c.isEmpty
    · have hce : c = [] := by simpa [List.isEmpty_iff] using hc
      rw [List.foldl_cons, if_pos hc, ih]
      rw [List.map_cons, List.sum_cons, hce, entrySum_nil, Nat.zero_add]
    · rw [List.foldl_cons, if_neg hc, ih, lookup_counterUpdate]
      rw [List.map_cons, List.sum_cons]
      omega

theorem lookup_consolidate (rs : List (List (String × Nat))) (w : String) :
    lookupCount (consolidate rs) w = (rs.map (fun c => entrySum c w)).sum := by
  have h := lookup_consolidate_fold rs [] w
  simpa [consolidate, lookup_nil] using h

theorem kvLE_iff (a b : String × Nat) :
    kvLE a b = true ↔ (b.2 < a.2 ∨ (a.2 = b.2 ∧ a.1 ≤ b.1)) := by
  simp [kvLE, Bool.or_eq_true, Bool.and_eq_true, decide_eq_true_iff, beq_iff_eq]

theorem kvLE_total (a b : String × Nat) : kvLE a b = true ∨ kvLE b a = true := by
  rcases Nat.lt_trichotomy a.2 b.2 with h | h | h
  · right; rw [kvLE_iff]; exact Or.inl h
  · rcases le_total a.1 b.1 with hs | hs
    · left; rw [kvLE_iff]; exact Or.inr ⟨h, hs⟩
    · right; rw [kvLE_iff]; exact Or.inr ⟨h.symm, hs⟩
  · left; rw [kvLE_iff]; exact Or.inl h

theorem kvLE_trans (a b c : String × Nat)
    (h1 : kvLE a b = true) (h2 : kvLE b c = true) : kvLE a c = true := by
  rw [kvLE_iff] at h1 h2 ⊢
  rcases h1 with h1 | ⟨h1, h1s⟩ <;> rcases h2 with h2 | ⟨h2, h2s⟩
  · exact Or.inl (h2.trans h1)
  · exact Or.inl (by omega)
  · exact Or.inl (by omega)
  · exact Or.inr ⟨h1.trans h2, h1s.trans h2s⟩

theorem insertSorted_perm (a : String × Nat) (l : List (String × Nat)) :
    (insertSorted a l).Perm (a :: l) := by
  induction l with
  | nil => exact List.Perm.refl _
  | cons b tl ih =>
    by_cases h : kvLE a b
    · simp [insertSorted, h]
    · simp only [insertSorted, if_neg h]
      exact (ih.cons b).trans (List.Perm.swap a b tl)

theorem sortCounts_perm (l : List (String × Nat)) : (sortCounts l).Perm l := by
  induction l with
  | nil => exact List.Perm.refl _
  | cons a tl ih =>
    have step : sortCounts (a :: tl) = insertSorted a (sortCounts tl) := rfl
    rw [step]
    exact (insertSorted_perm a (sortCounts tl)).trans (ih.cons a)

theorem mem_insertSorted (a x : String × Nat) (l : List (String × Nat))
    (h : x ∈ insertSorted a l) : x = a ∨ x ∈ l := by
  have := (insertSorted_perm a l).mem_iff.mp h
  simpa using this

theorem insertSorted_sorted (a : String × Nat) (l : List (String × Nat))
    (h : l.Pairwise (fun x y => kvLE x y = true)) :
    (insertSorted a l).Pairwise (fun x y => kvLE x y = true) := by
  induction l with
  | nil => simp [insertSorted]
  | cons b tl ih =>
    rcases List.pairwise_cons.mp h with ⟨hb, htl⟩
    by_cases hab : kvLE a b
    · simp only [insertSorted, if_pos hab]
      refine List.pairwise_cons.mpr ⟨?_, h⟩
      intro y hy
      rcases List.mem_cons.mp hy with rfl | hy
      · exact hab
      · exact kvLE_trans a b y hab (hb y hy)
    · simp only [insertSorted, if_neg hab]
      refine List.pairwise_cons.mpr ⟨?_, ih htl⟩
      intro y hy
      rcases mem_insertSorted a y tl hy with rfl | hy
      · rcases kvLE_total y b with hc | hc
        · exact absurd hc hab
        · exact hc
      · exact hb y hy

theorem sortCounts_sorted (l : List (String × Nat)) :
    (sortCounts l).Pairwise (fun x y => kvLE x y = true) := by
  induction l with
  | nil => simp [sortCounts]
  | cons a tl ih => exact insertSorted_sorted a (sortCounts tl) ih

theorem mem_keys_incKey (m : List (String × Nat)) (w : String) (k : Nat)
    (x : String) (h : x ∈ (incKey m w k).map Prod.fst) :
    x ∈ m.map Prod.fst ∨ x = w := by
  induction m with
  | nil => simpa [incKey] using h
  | cons p tl ih =>
    obtain ⟨a, b⟩ := p
    by_cases ha : a = w
    · simp only [incKey, if_pos ha, List.map_cons, List.mem_cons] at h ⊢
      tauto
    · simp only [incKey, if_neg ha, List.map_cons, List.mem_cons] at h ⊢
      rcases h with rfl | h
      · tauto
      · rcases ih h with h1 | h1 <;> tauto

theorem nodup_keys_incKey (m : List (String × Nat)) (w : String) (k : Nat)
    (h : (m.map Prod.fst).Nodup) : ((incKey m w k).map Prod.fst).Nodup := by
  induction m with
  | nil => simp [incKey]
  | cons p tl ih =>
    obtain ⟨a, b⟩ := p
    simp only [List.map_cons, List.nodup_cons] at h
    by_cases ha : a = w
    · simp only [incKey, if_pos ha, List.map_cons, List.nodup_cons]
      exact h
    · simp only [incKey, if_neg ha, List.map_cons, List.nodup_cons]
      refine ⟨fun hmem => ?_, ih h.2⟩
      rcases mem_keys_incKey tl w k a hmem with h1 | h1
      · exact h.1 h1
      · exact ha h1

theorem nodup_keys_counterUpdate (c : List (String × Nat)) :
    ∀ total : List (String × Nat), (total.map Prod.fst).Nodup →
      ((counterUpdate total c).map Prod.fst).Nodup := by
  induction c with
  | nil => intro total h; exact h
  | cons p tl ih =>
    intro total h
    exact ih (incKey total p.1 p.2) (nodup_keys_incKey total p.1 p.2 h)

theorem nodup_keys_consolidate (rs : List (List (String × Nat))) :
    ((consolidate rs).map Prod.fst).Nodup := by
  have main : ∀ (l : List (List (String × Nat))) (total : List (String × Nat)),
      (total.map Prod.fst).Nodup →
      ((l.foldl (fun t c => if c.isEmpty then t else counterUpdate t c) total).map
          Prod.fst).Nodup := by
    intro l
    induction l with
    | nil => intro total h; exact h
    | cons c tl ih =>
      intro total h
      by_cases hc : c.isEmpty
      · rw [List.foldl_cons, if_pos hc]; exact ih total h
      · rw [List.foldl_cons, if_neg hc]
        exact ih _ (nodup_keys_counterUpdate c total h)
  exact main rs [] (by simp)

theorem toNat_charOfNat (n : Nat) (h : n < 55296) : (Char.ofNat n).toNat = n := by
  have hv : n.isValidChar := Or.inl h
  rw [Char.ofNat, dif_pos hv]
  rfl

theorem pyLower_not_upper (c : Char) :
    ¬ (65 ≤ (pyLower c).toNat ∧ (pyLower c).toNat ≤ 90) := by
  by_cases h : 65 ≤ c.toNat && c.toNat ≤ 90
  · have hb : 65 ≤ c.toNat ∧ c.toNat ≤ 90 := by simpa [Bool.and_eq_true] using h
    rw [pyLower, if_pos h, toNat_charOfNat (c.toNat + 32) (by omega)]
    omega
  · have hb : ¬ (65 ≤ c.toNat ∧ c.toNat ≤ 90) := by
      simpa [Bool.and_eq_true, Decidable.not_and_iff_or_not] using h
    rw [pyLower, if_neg h]
    exact hb

theorem findWordsAux_mem (P : Char → Prop) :
    ∀ (cs cur : List Char) (t : List Char),
      (∀ c ∈ cs, P c) → (∀ c ∈ cur, P c ∧ isTokenChar c = true) →
      t ∈ findWordsAux cs cur →
      t ≠ [] ∧ ∀ c ∈ t, P c ∧ isTokenChar c = true := by
  intro cs
  induction cs with
  | nil =>
    intro cur t _ hcur ht
    by_cases hc : cur.isEmpty
    · simp [findWordsAux, hc] at ht
    · rw [findWordsAux, if_neg hc] at ht
      rcases List.mem_singleton.mp ht with rfl
      have hne : cur ≠ [] := fun h => hc (by simp [h])
      refine ⟨by simpa using hne, ?_⟩
      intro c hc2
      exact hcur c (List.mem_reverse.mp hc2)
  | cons a rest ih =>
    intro cur t hcs hcur ht
    have ha : P a := hcs a (List.mem_cons_self a rest)
    have hrest : ∀ c ∈ rest, P c := fun c hc => hcs c (List.mem_cons_of_mem a hc)
    by_cases hw : isTokenChar a
    · rw [findWordsAux, if_pos hw] at ht
      refine ih (a :: cur) t hrest ?_ ht
      intro c hc
      rcases List.mem_cons.mp hc with rfl | hc
      · exact ⟨ha, hw⟩
      · exact hcur c hc
    · rw [findWordsAux, if_neg hw] at ht
      by_cases hc : cur.isEmpty
      · rw [if_pos hc] at ht
        exact ih [] t hrest (by simp) ht
      · rw [if_neg hc] at ht
        rcases List.mem_cons.mp ht with rfl | ht
        · have hne : cur ≠ [] := fun h => hc (by simp [h])
          refine ⟨by simpa using hne, ?_⟩
          intro c hc2
          exact hcur c (List.mem_reverse.mp hc2)
        · exact ih [] t hrest (by simp) ht

theorem incKey_entries (Q : String → Prop) (m : List (String × Nat)) (w : String)
    (k : Nat) (hm : ∀ q ∈ m, Q q.1 ∧ 1 ≤ q.2) (hw : Q w) (hk : 1 ≤ k) :
    ∀ p ∈ incKey m w k, Q p.1 ∧ 1 ≤ p.2 := by
  induction m with
  | nil =>
    intro p hp
    rcases List.mem_singleton.mp hp with rfl
    exact ⟨hw, hk⟩
  | cons q tl ih =>
    obtain ⟨a, b⟩ := q
    have hq := hm (a, b) (List.mem_cons_self _ _)
    have htl : ∀ q ∈ tl, Q q.1 ∧ 1 ≤ q.2 := fun q hq2 => hm q (List.mem_cons_of_mem _ hq2)
    intro p hp
    by_cases ha : a = w
    · rw [incKey, if_pos ha] at hp
      rcases List.mem_cons.mp hp with rfl | hp
      · exact ⟨hq.1, by have := hq.2; omega⟩
      · exact htl p hp
    · rw [incKey, if_neg ha] at hp
      rcases List.mem_cons.mp hp with rfl | hp
      · exact hq
      · exact ih htl p hp

theorem counterOf_entries (Q : String → Prop) (ws : List String)
    (hws : ∀ w ∈ ws, Q w) :
    ∀ p ∈ counterOf ws, Q p.1 ∧ 1 ≤ p.2 := by
  have main : ∀ (l : List String) (acc : List (String × Nat)),
      (∀ w ∈ l, Q w) → (∀ q ∈ acc, Q q.1 ∧ 1 ≤ q.2) →
      ∀ p ∈ l.foldl (fun a w => incKey a w 1) acc, Q p.1 ∧ 1 ≤ p.2 := by
    intro l
    induction l with
    | nil => intro acc _ hacc p hp; exact hacc p hp
    | cons w tl ih =>
      intro acc hl hacc p hp
      rw [List.foldl_cons] at hp
      refine ih (incKey acc w 1) (fun x hx => hl x (List.mem_cons_of_mem _ hx)) ?_ p hp
      exact incKey_entries Q acc w 1 hacc (hl w (List.mem_cons_self _ _)) le_rfl
  exact main ws [] hws (by simp)

theorem isTokenChar_iff (c : Char) :
    isTokenChar c = true ↔
      (65 ≤ c.toNat ∧ c.toNat ≤ 90) ∨ (97 ≤ c.toNat ∧ c.toNat ≤ 122) ∨
        (48 ≤ c.toNat ∧ c.toNat ≤ 57) ∨ c.toNat = 39 := by
  simp [isTokenChar, Bool.or_eq_true, Bool.and_eq_true, decide_eq_true_iff]
  omega

theorem is_word_char_iff (b : Nat) :
    is_word_char b = true ↔
      (65 ≤ b ∧ b ≤ 90) ∨ (97 ≤ b ∧ b ≤ 122) ∨ (48 ≤ b ∧ b ≤ 57) ∨ b = 39 := by
  simp [is_word_char, Bool.or_eq_true, Bool.and_eq_true, decide_eq_true_iff]
  omega

/-- C5: planning over a file of size 0 returns exactly the one-element
plan consisting of the range from 0 to 0, for every positive segment
count. -/
theorem C5_empty_file (n : Int) (h : 0 < n) :
    compute_segments [] n = Except.ok [(0, 0)] := by
  unfold compute_segments
  rw [if_neg (by omega : ¬ n ≤ 0)]
  rfl

/-- C5 witness: the empty-file plan at segment count 10. -/
theorem C5_witness : (0 : Int) < 10 ∧ compute_segments [] 10 = Except.ok [(0, 0)] :=
  ⟨by decide, C5_empty_file 10 (by decide)⟩

/-- C7: for every file content and every non-positive segment count the
planner fails immediately with the invalid-argument error and produces no
ranges. -/
theorem C7_invalid_count (file : List Nat) (n : Int) (h : n ≤ 0) :
    compute_segments file n = Except.error "Number of segments must be > 0" := by
  unfold compute_segments
  rw [if_pos h]

/-- C7 witness: segment count -4 on a three-byte file. -/
theorem C7_witness :
    (-4 : Int) ≤ 0 ∧
      compute_segments [1, 2, 3] (-4) = Except.error "Number of segments must be > 0" :=
  ⟨by decide, C7_invalid_count [1, 2, 3] (-4) (by decide)⟩

/-- C3: contrary to the claim, a 3-byte file with segment count 10 does
not complete: the naive end bound of worker 0 is byte 0, so the code
executes a negative seek and raises. -/
theorem C3_crash_small_file :
    compute_segments c3File 10 = Except.error "negative seek" := by rfl

/-- C2 counterexample: the planner does not return a plan for every file
size and positive segment count; on a 1-byte file with 2 segments it
fails with the negative-seek error. -/
theorem C2_cex_no_return :
    compute_segments [97] 2 = Except.error "negative seek" := by rfl

/-- C1 counterexample: the planner returns a plan for the file
`aa 0x80 bbb` with 2 segments, splitting between the invalid byte and the
letters, yet the concatenated per-range tokenizations differ from the
whole-file tokenization, because the permissive decode drops the invalid
byte and fuses the two letter runs. -/
theorem C1_cex_split_word :
    compute_segments c1File 2 = Except.ok [(0, 3), (3, 6)] ∧
      ([(0, 3), (3, 6)].map (fun p => tokenize (sliceRange c1File p.1 p.2))).flatten ≠
        tokenize c1File := by
  refine ⟨by rfl, by decide⟩

/-- C6 counterexample: in the end-to-end example the consolidated count
of the word `cat` is 1, not the 2 the claim states (the token after the
apostrophe-bearing word is counted as a separate key). -/
theorem C6_cex_cat_count :
    compute_segments c6File 3 = Except.ok c6Plan ∧
      lookupCount
          (consolidate (c6Plan.map (fun p => count_words_bytes (sliceRange c6File p.1 p.2))))
          "cat" = 1 ∧
      lookupCount
          (consolidate (c6Plan.map (fun p => count_words_bytes (sliceRange c6File p.1 p.2))))
          "cat" ≠ 2 := by
  refine ⟨by rfl, by rfl, by decide⟩

/-- C6 amended: for the end-to-end example with 3 segments, the
consolidated result equals counting the whole input at once, and both
equal the table mapping the to 3 and each of cat, sat, on, mat, the
apostrophe word and hat to 1. -/
theorem C6_amended_counts :
    compute_segments c6File 3 = Except.ok c6Plan ∧
      consolidate (c6Plan.map (fun p => count_words_bytes (sliceRange c6File p.1 p.2))) =
        count_words_bytes c6File ∧
      count_words_bytes c6File = c6Counts := by
  refine ⟨by rfl, by decide, by decide⟩

/-- C8: consolidate assigns to every word the sum of its counts across
the input maps (absence counting as zero, empty entries contributing
zero), and the resulting mapping is invariant under any permutation of
the inputs. -/
theorem C8_consolidate_sum_perm (results : List (List (String × Nat)))
    (hnd : ∀ c ∈ results, (c.map Prod.fst).Nodup) :
    (∀ w, lookupCount (consolidate results) w =
        (results.map (fun c => lookupCount c w)).sum) ∧
      (∀ results2, results.Perm results2 →
        ∀ w, lookupCount (consolidate results) w = lookupCount (consolidate results2) w) := by
  constructor
  · intro w
    rw [lookup_consolidate]
    congr 1
    exact List.map_congr_left (fun c hc => entrySum_eq_lookup c w (hnd c hc))
  · intro rs2 hp w
    rw [lookup_consolidate, lookup_consolidate]
    exact (hp.map (fun c => entrySum c w)).sum_eq

/-- C8 witness: a concrete list of three counters, one of them empty. -/
theorem C8_witness :
    (∀ c ∈ c8Results, (c.map Prod.fst).Nodup) ∧
      (∀ w, lookupCount (consolidate c8Results) w =
        (c8Results.map (fun c => lookupCount c w)).sum) :=
  ⟨by decide, (C8_consolidate_sum_perm c8Results (by decide)).1⟩

/-- C9: the sorted presentation of any consolidated table is a
permutation of it in which every adjacent pair is either strictly
decreasing in count or tied in count with strictly increasing words. -/
theorem C9_sorted_presentation (results : List (List (String × Nat))) :
    (sortCounts (consolidate results)).Perm (consolidate results) ∧
      List.Chain' (fun a b => b.2 < a.2 ∨ (a.2 = b.2 ∧ a.1 < b.1))
        (sortCounts (consolidate results)) := by
  have hperm := sortCounts_perm (consolidate results)
  refine ⟨hperm, ?_⟩
  have hsorted := sortCounts_sorted (consolidate results)
  have hnd : ((consolidate results).map Prod.fst).Nodup := nodup_keys_consolidate results
  have hnd2 : ((sortCounts (consolidate results)).map Prod.fst).Nodup :=
    ((hperm.map Prod.fst).nodup_iff).mpr hnd
  have hne : (sortCounts (consolidate results)).Pairwise (fun a b => a.1 ≠ b.1) :=
    List.pairwise_map.mp hnd2
  refine List.Pairwise.chain' ?_
  refine (hsorted.and hne).imp ?_
  intro a b hab
  rcases (kvLE_iff a b).mp hab.1 with h | ⟨h1, h2⟩
  · exact Or.inl h
  · exact Or.inr ⟨h1, lt_of_le_of_ne h2 hab.2⟩

/-- C10: every entry of any counting result has a non-empty key made of
lowercase ASCII letters, digits or apostrophes, and a strictly positive
count. -/
theorem C10_entry_shape (buf : List Nat) (p : String × Nat)
    (hp : p ∈ count_words_bytes buf) :
    p.1 ≠ "" ∧ 1 ≤ p.2 ∧
      ∀ c ∈ p.1.data,
        (97 ≤ c.toNat ∧ c.toNat ≤ 122) ∨ (48 ≤ c.toNat ∧ c.toNat ≤ 57) ∨ c.toNat = 39 := by
  have htext : ∀ c ∈ (decodeUtf8Ignore buf).map pyLower,
      ¬ (65 ≤ c.toNat ∧ c.toNat ≤ 90) := by
    intro c hc
    rcases List.mem_map.mp hc with ⟨c0, _, rfl⟩
    exact pyLower_not_upper c0
  have htok : ∀ w ∈ tokenize buf, w ≠ "" ∧
      ∀ c ∈ w.data,
        (97 ≤ c.toNat ∧ c.toNat ≤ 122) ∨ (48 ≤ c.toNat ∧ c.toNat ≤ 57) ∨ c.toNat = 39 := by
    intro w hw
    rcases List.mem_map.mp hw with ⟨t, ht, rfl⟩
    have hfw := findWordsAux_mem (fun c => ¬ (65 ≤ c.toNat ∧ c.toNat ≤ 90))
      ((decodeUtf8Ignore buf).map pyLower) [] t htext (by simp) ht
    constructor
    · intro hc
      exact hfw.1 (congrArg String.data hc)
    · intro c hc
      have hct := hfw.2 c hc
      rcases (isTokenChar_iff c).mp hct.2 with h | h | h | h
      · exact absurd h hct.1
      · exact Or.inl h
      · exact Or.inr (Or.inl h)
      · exact Or.inr (Or.inr h)
  have hq := counterOf_entries
    (fun w => w ≠ "" ∧ ∀ c ∈ w.data,
      (97 ≤ c.toNat ∧ c.toNat ≤ 122) ∨ (48 ≤ c.toNat ∧ c.toNat ≤ 57) ∨ c.toNat = 39)
    (tokenize buf) htok p hp
  exact ⟨hq.1.1, hq.2, hq.1.2⟩

/-- C10 witness: the entry for hi in the count of the bytes of hi!. -/
theorem C10_witness :
    ("hi", 1) ∈ count_words_bytes [104, 105, 33] ∧
      (("hi", 1).1 ≠ "" ∧ 1 ≤ ("hi", 1).2 ∧
        ∀ c ∈ ("hi", 1).1.data,
          (97 ≤ c.toNat ∧ c.toNat ≤ 122) ∨ (48 ≤ c.toNat ∧ c.toNat ≤ 57) ∨ c.toNat = 39) :=
  ⟨by decide, C10_entry_shape [104, 105, 33] ("hi", 1) (by decide)⟩

theorem mergeAux_rest_nil (m : List (Nat × Nat)) (lastEnd : Nat) :
    mergeAux m lastEnd [] = m.reverse := by
  cases m with
  | nil => rfl
  | cons p mtl => rfl

theorem mergeAux_nil_cons (lastEnd s e : Nat) (tl : List (Nat × Nat)) :
    mergeAux [] lastEnd ((s, e) :: tl) = mergeAux [(s, e)] e tl := rfl

theorem mergeAux_cons_cons (ps pe : Nat) (mtl : List (Nat × Nat)) (lastEnd s e : Nat)
    (tl : List (Nat × Nat)) :
    mergeAux ((ps, pe) :: mtl) lastEnd ((s, e) :: tl) =
      if e = s then mergeAux ((ps, max pe e) :: mtl) lastEnd tl
      else
        mergeAux ((if max s lastEnd > e then e else max s lastEnd, e) :: (ps, pe) :: mtl)
          e tl := rfl

theorem findWordsAux_nil (cur : List Char) :
    findWordsAux [] cur = if cur.isEmpty then [] else [cur.reverse] := rfl

theorem findWordsAux_cons (a : Char) (rest cur : List Char) :
    findWordsAux (a :: rest) cur =
      if isTokenChar a then findWordsAux rest (a :: cur)
      else if cur.isEmpty then findWordsAux rest []
      else cur.reverse :: findWordsAux rest [] := rfl

theorem adjStartF_succ (fuel : Nat) (file : List Nat) (s : Nat) :
    adjStartF (fuel + 1) file s =
      match file[s - 1]? with
      | some b => if is_word_char b then adjStartF fuel file (s + 1) else s
      | none => s := rfl

theorem adjEndF_succ (fuel : Nat) (file : List Nat) (e : Nat) :
    adjEndF (fuel + 1) file e =
      match file[e - 1]? with
      | some b =>
        if is_word_char b then
          if file.length ≤ e + 1 then file.length else adjEndF fuel file (e + 1)
        else e
      | none => e := rfl

theorem adjStartF_succ_none (fuel : Nat) (file : List Nat) (s : Nat)
    (h : file[s - 1]? = none) : adjStartF (fuel + 1) file s = s := by
  simp [adjStartF_succ, h]

theorem adjStartF_succ_some (fuel : Nat) (file : List Nat) (s b : Nat)
    (h : file[s - 1]? = some b) :
    adjStartF (fuel + 1) file s =
      if is_word_char b then adjStartF fuel file (s + 1) else s := by
  simp [adjStartF_succ, h]

theorem adjEndF_succ_none (fuel : Nat) (file : List Nat) (e : Nat)
    (h : file[e - 1]? = none) : adjEndF (fuel + 1) file e = e := by
  simp [adjEndF_succ, h]

theorem adjEndF_succ_some (fuel : Nat) (file : List Nat) (e b : Nat)
    (h : file[e - 1]? = some b) :
    adjEndF (fuel + 1) file e =
      if is_word_char b then
        (if file.length ≤ e + 1 then file.length else adjEndF fuel file (e + 1))
      else e := by
  simp [adjEndF_succ, h]

theorem adjStartF_le (fuel : Nat) : ∀ (file : List Nat) (s : Nat), s ≤ adjStartF fuel file s := by
  induction fuel with
  | zero => intro file s; exact le_rfl
  | succ fuel ih =>
    intro file s
    cases hb : file[s - 1]? with
    | none => rw [adjStartF_succ_none fuel file s hb]
    | some b =>
      rw [adjStartF_succ_some fuel file s b hb]
      by_cases hw : is_word_char b
      · rw [if_pos hw]
        have := ih file (s + 1)
        omega
      · rw [if_neg hw]

theorem adjStartF_stable (fuel : Nat) :
    ∀ (file : List Nat) (s : Nat), file.length + 1 ≤ fuel + s →
      adjStartF (fuel + 1) file s = adjStartF fuel file s := by
  induction fuel with
  | zero =>
    intro file s h
    have hnone : file[s - 1]? = none := by
      rw [List.getElem?_eq_none_iff]
      omega
    rw [adjStartF_succ_none 0 file s hnone]
    rfl
  | succ fuel ih =>
    intro file s h
    cases hb : file[s - 1]? with
    | none =>
      rw [adjStartF_succ_none (fuel + 1) file s hb, adjStartF_succ_none fuel file s hb]
    | some b =>
      rw [adjStartF_succ_some (fuel + 1) file s b hb, adjStartF_succ_some fuel file s b hb]
      by_cases hw : is_word_char b
      · rw [if_pos hw, if_pos hw]
        exact ih file (s + 1) (by omega)
      · rw [if_neg hw, if_neg hw]

theorem adjStartF_stable_of_le (file : List Nat) (s : Nat) (fuel fuel2 : Nat)
    (h1 : file.length + 1 ≤ fuel) (h2 : fuel ≤ fuel2) :
    adjStartF fuel2 file s = adjStartF fuel file s := by
  induction fuel2, h2 using Nat.le_induction with
  | base => rfl
  | succ m hm ih => rw [adjStartF_stable m file s (by omega), ih]

theorem adjStart_step_none (file : List Nat) (s : Nat) (h : file[s - 1]? = none) :
    adjStart file s = s :=
  adjStartF_succ_none (file.length + 1) file s h

theorem adjStart_step_some (file : List Nat) (s b : Nat) (h : file[s - 1]? = some b) :
    adjStart file s = if is_word_char b then adjStart file (s + 1) else s := by
  rw [show adjStart file s = adjStartF (file.length + 1 + 1) file s from rfl]
  rw [adjStartF_succ_some (file.length + 1) file s b h]
  by_cases hw : is_word_char b
  · rw [if_pos hw, if_pos hw]
    exact (adjStartF_stable_of_le file (s + 1) (file.length + 1) (file.length + 2)
      le_rfl (by omega)).symm
  · rw [if_neg hw, if_neg hw]

theorem adjStart_ge (file : List Nat) (s : Nat) : s ≤ adjStart file s :=
  adjStartF_le (file.length + 2) file s

theorem adjStart_le_succ (file : List Nat) (s : Nat) :
    adjStart file s ≤ adjStart file (s + 1) := by
  cases hb : file[s - 1]? with
  | none =>
    rw [adjStart_step_none file s hb]
    have := adjStart_ge file (s + 1)
    omega
  | some b =>
    rw [adjStart_step_some file s b hb]
    by_cases hw : is_word_char b
    · rw [if_pos hw]
    · rw [if_neg hw]
      have := adjStart_ge file (s + 1)
      omega

theorem adjStart_mono (file : List Nat) (a b : Nat) (h : a ≤ b) :
    adjStart file a ≤ adjStart file b := by
  induction b, h using Nat.le_induction with
  | base => exact le_rfl
  | succ m hm ih => exact ih.trans (adjStart_le_succ file m)

theorem adjStartF_boundary (fuel : Nat) :
    ∀ (file : List Nat) (s : Nat), file.length + 1 ≤ fuel + s →
      ∀ c, file[adjStartF fuel file s - 1]? = some c → is_word_char c = false := by
  induction fuel with
  | zero =>
    intro file s h c hc
    have hnone : file[s - 1]? = none := by
      rw [List.getElem?_eq_none_iff]; omega
    rw [show adjStartF 0 file s = s from rfl, hnone] at hc
    exact Option.noConfusion hc
  | succ fuel ih =>
    intro file s h c hc
    cases hb : file[s - 1]? with
    | none =>
      rw [adjStartF_succ_none fuel file s hb, hb] at hc
      exact Option.noConfusion hc
    | some b =>
      rw [adjStartF_succ_some fuel file s b hb] at hc
      by_cases hw : is_word_char b
      · rw [if_pos hw] at hc
        exact ih file (s + 1) (by omega) c hc
      · rw [if_neg hw, hb] at hc
        cases hc
        exact Bool.eq_false_iff.mpr hw

theorem adjStart_boundary (file : List Nat) (s : Nat) (c : Nat)
    (hc : file[adjStart file s - 1]? = some c) : is_word_char c = false :=
  adjStartF_boundary (file.length + 2) file s (by omega) c hc

theorem adjEndF_eq_min (fuel : Nat) :
    ∀ (file : List Nat) (e : Nat), 1 ≤ e → e ≤ file.length →
      file.length ≤ fuel + e →
      adjEndF fuel file e = min (adjStartF fuel file e) file.length := by
  induction fuel with
  | zero =>
    intro file e h1 h2 h3
    show e = min e file.length
    omega
  | succ fuel ih =>
    intro file e h1 h2 h3
    cases hb : file[e - 1]? with
    | none =>
      rw [List.getElem?_eq_none_iff] at hb
      omega
    | some b =>
      rw [adjEndF_succ_some fuel file e b hb, adjStartF_succ_some fuel file e b hb]
      by_cases hw : is_word_char b
      · rw [if_pos hw, if_pos hw]
        by_cases hcap : file.length ≤ e + 1
        · rw [if_pos hcap]
          have hge := adjStartF_le fuel file (e + 1)
          omega
        · rw [if_neg hcap]
          exact ih file (e + 1) (by omega) (by omega) (by omega)
      · rw [if_neg hw, if_neg hw]
        omega

theorem adjEnd_eq_min (file : List Nat) (e : Nat) (h1 : 1 ≤ e) (h2 : e ≤ file.length) :
    adjEnd file e = min (adjStart file e) file.length :=
  adjEndF_eq_min (file.length + 2) file e h1 h2 (by omega)

theorem mul_approx_le (file : List Nat) (n approx : Nat)
    (hap : approx = file.length / n) : n * approx ≤ file.length := by
  subst hap
  rw [Nat.mul_comm]
  exact Nat.div_mul_le_self file.length n

theorem interior_end_lt (file : List Nat) (n approx i : Nat)
    (hap : approx = file.length / n) (h1 : 1 ≤ approx) (hi : i < n - 1) :
    (i + 1) * approx < file.length := by
  have h2 : (i + 2) * approx ≤ n * approx := Nat.mul_le_mul_right approx (by omega)
  have h3 : n * approx ≤ file.length := mul_approx_le file n approx hap
  have h4 : (i + 2) * approx = (i + 1) * approx + approx := by ring
  omega

theorem rawSeg_ok (file : List Nat) (n approx i : Nat)
    (hap : approx = file.length / n) (h1 : 1 ≤ approx) (hi : i < n) :
    rawSeg file n approx i = Except.ok (pureSeg file n approx i) := by
  by_cases hlast : i = n - 1
  · simp [rawSeg, pureSeg, hlast]
  · have hend : (i + 1) * approx < file.length :=
      interior_end_lt file n approx i hap h1 (by omega)
    have hpos : 0 < (i + 1) * approx := by
      have : approx ≤ (i + 1) * approx := Nat.le_mul_of_pos_left approx (by omega)
      omega
    have hne : ¬ (i + 1) * approx = 0 := by omega
    simp [rawSeg, pureSeg, hlast, hend, hne]

theorem mapM_ok_of_forall {α β : Type} (f : α → Except String β) (g : α → β) :
    ∀ l : List α, (∀ a ∈ l, f a = Except.ok (g a)) → l.mapM f = Except.ok (l.map g) := by
  intro l
  induction l with
  | nil => intro _; rfl
  | cons a tl ih =>
    intro h
    rw [List.mapM_cons, h a (List.mem_cons_self a tl),
      ih (fun x hx => h x (List.mem_cons_of_mem a hx))]
    rfl

theorem mapM_error_head {α β : Type} (f : α → Except String β) (a : α) (l : List α)
    (msg : String) (h : f a = Except.error msg) :
    (a :: l).mapM f = Except.error msg := by
  rw [List.mapM_cons, h]
  rfl

theorem pureSeg_start_zero (file : List Nat) (n approx : Nat) :
    (pureSeg file n approx 0).1 = 0 := by
  simp [pureSeg]

theorem pureSeg_start_pos (file : List Nat) (n approx i : Nat)
    (h1 : 1 ≤ approx) (hi : 1 ≤ i) :
    (pureSeg file n approx i).1 = adjStart file (i * approx) := by
  have hpos : 0 < i * approx := Nat.mul_pos (by omega) (by omega)
  simp [pureSeg, hpos]

theorem pureSeg_end_last (file : List Nat) (n approx : Nat) :
    (pureSeg file n approx (n - 1)).2 = file.length := by
  simp [pureSeg]

theorem pureSeg_end_interior (file : List Nat) (n approx i : Nat)
    (hap : approx = file.length / n) (h1 : 1 ≤ approx) (hi : i < n - 1) :
    (pureSeg file n approx i).2 = min (adjStart file ((i + 1) * approx)) file.length := by
  have hlt : (i + 1) * approx < file.length := interior_end_lt file n approx i hap h1 hi
  have hpos : 0 < (i + 1) * approx := by
    have : approx ≤ (i + 1) * approx := Nat.le_mul_of_pos_left approx (by omega)
    omega
  have : (pureSeg file n approx i).2 = adjEnd file ((i + 1) * approx) := by
    show (if i = n - 1 then file.length else adjEnd file ((i + 1) * approx)) =
      adjEnd file ((i + 1) * approx)
    rw [if_neg (by omega : ¬ i = n - 1)]
  rw [this, adjEnd_eq_min file ((i + 1) * approx) (by omega) (by omega)]

theorem pureSeg_rel (file : List Nat) (n approx i : Nat)
    (hap : approx = file.length / n) (h1 : 1 ≤ approx) (hi : i < n - 1) :
    SegRel file (pureSeg file n approx i) (pureSeg file n approx (i + 1)) := by
  constructor
  · rw [pureSeg_end_interior file n approx i hap h1 hi,
      pureSeg_start_pos file n approx (i + 1) h1 (by omega)]
  · by_cases hi0 : i = 0
    · subst hi0
      rw [pureSeg_start_zero]
      exact Nat.zero_le _
    · rw [pureSeg_start_pos file n approx i h1 (by omega),
        pureSeg_start_pos file n approx (i + 1) h1 (by omega)]
      exact adjStart_mono file _ _ (Nat.mul_le_mul_right approx (by omega))

theorem rawList_chain (file : List Nat) (n approx : Nat)
    (hap : approx = file.length / n) (h1 : 1 ≤ approx) (hn : 1 ≤ n) :
    List.Chain' (SegRel file) ((List.range n).map (pureSeg file n approx)) := by
  rw [List.chain'_map]
  obtain ⟨m, rfl⟩ : ∃ m, n = m + 1 := ⟨n - 1, by omega⟩
  rw [List.chain'_range_succ]
  intro i hi
  exact pureSeg_rel file (m + 1) approx i hap h1 (by omega)

theorem rawList_last (file : List Nat) (n approx : Nat) (hn : 1 ≤ n) :
    ((List.range n).map (pureSeg file n approx)).getLast? =
      some (pureSeg file n approx (n - 1)) := by
  obtain ⟨m, rfl⟩ : ∃ m, n = m + 1 := ⟨n - 1, by omega⟩
  rw [List.range_succ, List.map_append]
  simp [List.getLast?_concat]

theorem rawList_head (file : List Nat) (n approx : Nat) (hn : 1 ≤ n) :
    ((List.range n).map (pureSeg file n approx)).head? =
      some (pureSeg file n approx 0) := by
  obtain ⟨m, rfl⟩ : ∃ m, n = m + 1 := ⟨n - 1, by omega⟩
  rw [List.range_succ_eq_map]
  simp

theorem cutPt_length (file : List Nat) : CutPt file file.length :=
  ⟨le_rfl, Or.inr (Or.inl rfl)⟩

theorem getElem?_eq_some_getD (l : List Nat) (i : Nat) (h : i < l.length) :
    l[i]? = some (l.getD i 0) := by
  rw [List.getElem?_eq_getElem h]
  rw [List.getD_eq_getElem?_getD, List.getElem?_eq_getElem h]
  rfl

theorem cutPt_adjStart_min (file : List Nat) (b : Nat) (hb : 1 ≤ b) :
    CutPt file (min (adjStart file b) file.length) := by
  by_cases h : adjStart file b ≤ file.length
  · rw [Nat.min_eq_left h]
    have hge := adjStart_ge file b
    refine ⟨h, ?_⟩
    by_cases hSL : adjStart file b = file.length
    · exact Or.inr (Or.inl hSL)
    · have hidx : adjStart file b - 1 < file.length := by omega
      have hsome : file[adjStart file b - 1]? = some (file.getD (adjStart file b - 1) 0) :=
        getElem?_eq_some_getD file _ hidx
      exact Or.inr (Or.inr (adjStart_boundary file b _ hsome))
  · rw [Nat.min_eq_right (by omega)]
    exact cutPt_length file

theorem pureSeg_end_cut (file : List Nat) (n approx i : Nat)
    (hap : approx = file.length / n) (h1 : 1 ≤ approx) (hi : i < n) :
    CutPt file (pureSeg file n approx i).2 := by
  by_cases hlast : i = n - 1
  · rw [hlast, pureSeg_end_last]
    exact cutPt_length file
  · rw [pureSeg_end_interior file n approx i hap h1 (by omega)]
    have hpos : 1 ≤ (i + 1) * approx := by
      have : approx ≤ (i + 1) * approx := Nat.le_mul_of_pos_left approx (by omega)
      omega
    exact cutPt_adjStart_min file ((i + 1) * approx) hpos

theorem mergeAux_chain (file : List Nat) :
    ∀ (rest : List (Nat × Nat)) (ps pe lastEnd : Nat) (mtlRev : List (Nat × Nat)),
      (∀ q, rest.head? = some q → pe = min q.1 file.length ∧ lastEnd ≤ q.1) →
      (rest = [] → pe = file.length) →
      List.Chain' (SegRel file) rest →
      (∀ l, rest.getLast? = some l → l.2 = file.length) →
      (∀ p ∈ rest, CutPt file p.2) →
      ∃ out, mergeAux ((ps, pe) :: mtlRev) lastEnd rest =
          mtlRev.reverse ++ (ps, pe) :: out ∧ ChainFrom file pe out := by
  intro rest
  induction rest with
  | nil =>
    intro ps pe lastEnd mtlRev hhead hnil hchain hlast hmem
    refine ⟨[], ?_, hnil rfl⟩
    rw [mergeAux_rest_nil, List.reverse_cons]
  | cons q tl ih =>
    intro ps pe lastEnd mtlRev hhead hnil hchain hlast hmem
    obtain ⟨s, e⟩ := q
    obtain ⟨hpe, hle⟩ := hhead (s, e) rfl
    have hcut : CutPt file e := hmem (s, e) (List.mem_cons_self _ _)
    have heL : e ≤ file.length := hcut.1
    have htl_chain : List.Chain' (SegRel file) tl := (List.chain'_cons'.mp hchain).2
    have htl_last : ∀ l, tl.getLast? = some l → l.2 = file.length := by
      intro l hl
      cases tl with
      | nil => exact Option.noConfusion hl
      | cons t ts =>
        apply hlast
        rw [List.getLast?_cons_cons]
        exact hl
    have htl_mem : ∀ p ∈ tl, CutPt file p.2 :=
      fun p hp => hmem p (List.mem_cons_of_mem _ hp)
    by_cases hse : e = s
    · -- zero-length segment: dropped, previous end extended (a no-op here)
      have hpe2 : pe = e := by omega
      have hmax : max pe e = pe := by omega
      rw [mergeAux_cons_cons, if_pos hse, hmax]
      apply ih ps pe lastEnd mtlRev ?_ ?_ htl_chain htl_last htl_mem
      · intro q2 hq2
        cases tl with
        | nil => exact Option.noConfusion hq2
        | cons t ts =>
          obtain rfl : t = q2 := by simpa using hq2
          have hrel : SegRel file (s, e) t := (List.chain'_cons.mp hchain).1
          obtain ⟨he2, hs2⟩ := hrel
          constructor
          · omega
          · have : min t.1 file.length ≤ t.1 := Nat.min_le_left _ _
            omega
      · intro htlnil
        subst htlnil
        have := hlast (s, e) (by simp)
        simpa [hpe2] using this
    · -- kept segment
      rw [mergeAux_cons_cons, if_neg hse]
      have hmaxs : max s lastEnd = s := by omega
      have hheadtl : ∀ q2, tl.head? = some q2 → e = min q2.1 file.length ∧ e ≤ q2.1 ∧ s ≤ q2.1 := by
        intro q2 hq2
        cases tl with
        | nil => exact Option.noConfusion hq2
        | cons t ts =>
          obtain rfl : t = q2 := by simpa using hq2
          have hrel : SegRel file (s, e) t := (List.chain'_cons.mp hchain).1
          obtain ⟨he2, hs2⟩ := hrel
          refine ⟨he2, ?_, hs2⟩
          have : min t.1 file.length ≤ t.1 := Nat.min_le_left _ _
          omega
      have htlnil_e : tl = [] → e = file.length := by
        intro htlnil
        subst htlnil
        exact hlast (s, e) (by simp)
      by_cases hsL : s ≤ file.length
      · -- in-bounds start: the clamp is the identity and the range is non-empty
        have hpes : pe = s := by omega
        have hes : s ≤ e := by
          cases tl with
          | nil =>
            have := htlnil_e rfl
            omega
          | cons t ts =>
            obtain ⟨he2, _, hs2⟩ := hheadtl t rfl
            omega
        rw [hmaxs, if_neg (by omega : ¬ s > e)]
        obtain ⟨out, hout, hch⟩ := ih s e e ((ps, pe) :: mtlRev)
          (fun q2 hq2 => ⟨(hheadtl q2 hq2).1, (hheadtl q2 hq2).2.1⟩)
          htlnil_e htl_chain htl_last htl_mem
        refine ⟨(s, e) :: out, ?_, ?_⟩
        · rw [hout, List.reverse_cons, List.append_assoc]
          rfl
        · exact ⟨hpes.symm, by omega, hcut, hch⟩
      · -- start beyond the file: clamped down to its end, which is the file size
        have hpeL : pe = file.length := by omega
        have heLe : e = file.length := by
          cases tl with
          | nil => exact htlnil_e rfl
          | cons t ts =>
            obtain ⟨he2, _, hs2⟩ := hheadtl t rfl
            omega
        rw [hmaxs, if_pos (by omega : s > e)]
        obtain ⟨out, hout, hch⟩ := ih e e e ((ps, pe) :: mtlRev)
          (fun q2 hq2 => by
            obtain ⟨he2, hq1, hs2⟩ := hheadtl q2 hq2
            exact ⟨by omega, hq1⟩)
          htlnil_e htl_chain htl_last htl_mem
        refine ⟨(e, e) :: out, ?_, ?_⟩
        · rw [hout, List.reverse_cons, List.append_assoc]
          rfl
        · exact ⟨by omega, by omega, hcut, hch⟩

theorem mergeSegs_chain (file : List Nat) (L : List (Nat × Nat))
    (hne : L ≠ [])
    (hhead : ∀ q, L.head? = some q → q.1 = 0)
    (hchain : List.Chain' (SegRel file) L)
    (hlast : ∀ l, L.getLast? = some l → l.2 = file.length)
    (hmem : ∀ p ∈ L, CutPt file p.2) :
    ChainFrom file 0 (mergeSegs L) := by
  cases L with
  | nil => exact absurd rfl hne
  | cons q tl =>
    obtain ⟨s, e0⟩ := q
    obtain rfl : s = 0 := hhead (s, e0) rfl
    rw [mergeSegs, mergeAux_nil_cons]
    obtain ⟨out, hout, hch⟩ := mergeAux_chain file tl 0 e0 e0 []
      (by
        intro q2 hq2
        cases tl with
        | nil => exact Option.noConfusion hq2
        | cons t ts =>
          obtain rfl : t = q2 := by simpa using hq2
          have hrel : SegRel file (0, e0) t := (List.chain'_cons.mp hchain).1
          obtain ⟨he2, _⟩ := hrel
          have : min t.1 file.length ≤ t.1 := Nat.min_le_left _ _
          exact ⟨he2, by omega⟩)
      (by
        intro htlnil
        subst htlnil
        exact hlast (0, e0) (by simp))
      ((List.chain'_cons'.mp hchain).2)
      (by
        intro l hl
        cases tl with
        | nil => exact Option.noConfusion hl
        | cons t ts =>
          apply hlast
          rw [List.getLast?_cons_cons]
          exact hl)
      (fun p hp => hmem p (List.mem_cons_of_mem _ hp))
    rw [hout, List.reverse_nil, List.nil_append]
    exact ⟨rfl, Nat.zero_le _, hmem (0, e0) (List.mem_cons_self _ _), hch⟩

theorem plan_chain (file : List Nat) (n : Int) (plan : List (Nat × Nat))
    (h : compute_segments file n = Except.ok plan) :
    ChainFrom file 0 plan := by
  unfold compute_segments at h
  by_cases hn : n ≤ 0
  · rw [if_pos hn] at h
    exact absurd h (by simp)
  · rw [if_neg hn] at h
    by_cases hsz : file.length = 0
    · rw [if_pos hsz] at h
      have hp : plan = [(0, 0)] := by
        injection h with h2
        exact h2.symm
      subst hp
      exact ⟨rfl, le_rfl, ⟨by omega, Or.inl rfl⟩, hsz.symm⟩
    · rw [if_neg hsz] at h
      have hN1 : 1 ≤ n.toNat := by omega
      by_cases hap : 1 ≤ file.length / n.toNat
      · have hok : (List.range n.toNat).mapM (rawSeg file n.toNat (file.length / n.toNat)) =
            Except.ok ((List.range n.toNat).map (pureSeg file n.toNat (file.length / n.toNat))) :=
          mapM_ok_of_forall _ _ _
            (fun i hi =>
              rawSeg_ok file n.toNat (file.length / n.toNat) i rfl hap (List.mem_range.mp hi))
        simp only [hok] at h
        have hp : plan =
            mergeSegs ((List.range n.toNat).map
              (pureSeg file n.toNat (file.length / n.toNat))) := by
          injection h with h3
          exact h3.symm
        subst hp
        apply mergeSegs_chain file
        · intro hemp
          rw [List.map_eq_nil_iff] at hemp
          rw [List.range_eq_nil] at hemp
          omega
        · intro q hq
          rw [rawList_head file n.toNat (file.length / n.toNat) hN1] at hq
          obtain rfl : pureSeg file n.toNat (file.length / n.toNat) 0 = q :=
            Option.some.inj hq
          exact pureSeg_start_zero file n.toNat (file.length / n.toNat)
        · exact rawList_chain file n.toNat (file.length / n.toNat) rfl hap hN1
        · intro l hl
          rw [rawList_last file n.toNat (file.length / n.toNat) hN1] at hl
          obtain rfl : pureSeg file n.toNat (file.length / n.toNat) (n.toNat - 1) = l :=
            Option.some.inj hl
          exact pureSeg_end_last file n.toNat (file.length / n.toNat)
        · intro p hp
          rw [List.mem_map] at hp
          obtain ⟨i, hi, rfl⟩ := hp
          exact pureSeg_end_cut file n.toNat (file.length / n.toNat) i rfl hap
            (List.mem_range.mp hi)
      · -- approx = 0 forces a failure, contradicting success
        have hap0 : file.length / n.toNat = 0 := Nat.lt_one_iff.mp (Nat.not_le.mp hap)
        clear hap
        have hN2 : 2 ≤ n.toNat := by
          by_contra hcon
          have hone : n.toNat = 1 := by omega
          rw [hone, Nat.div_one] at hap0
          exact hsz hap0
        have herr : rawSeg file n.toNat (file.length / n.toNat) 0 =
            Except.error "negative seek" := by
          have h01 : ¬ (0 : Nat) = n.toNat - 1 := by omega
          have hL : 0 < file.length := by omega
          simp [rawSeg, h01, hap0, hL]
        obtain ⟨m, hm⟩ : ∃ m, n.toNat = m + 1 :=
          ⟨n.toNat - 1, (Nat.succ_pred_eq_of_pos hN1).symm⟩
        have herr2 : (List.range n.toNat).mapM (rawSeg file n.toNat (file.length / n.toNat)) =
            Except.error "negative seek" := by
          rw [hm, List.range_succ_eq_map]
          exact mapM_error_head _ _ _ _ (by rw [← hm]; exact herr)
        simp only [herr2] at h
        exact absurd h (by simp)

theorem chainFrom_start_ge (file : List Nat) :
    ∀ (l : List (Nat × Nat)) (a : Nat), ChainFrom file a l →
      ∀ p ∈ l, a ≤ p.1 ∧ p.1 ≤ p.2 := by
  intro l
  induction l with
  | nil => intro a _ p hp; exact absurd hp (List.not_mem_nil p)
  | cons q tl ih =>
    intro a hch p hp
    obtain ⟨s, e⟩ := q
    obtain ⟨rfl, hae, hcut, htl⟩ := hch
    rcases List.mem_cons.mp hp with rfl | hp
    · exact ⟨le_rfl, hae⟩
    · have := ih e htl p hp
      exact ⟨by omega, this.2⟩

theorem chainFrom_pairwise (file : List Nat) :
    ∀ (l : List (Nat × Nat)) (a : Nat), ChainFrom file a l →
      List.Pairwise (fun p q => p.2 ≤ q.1) l := by
  intro l
  induction l with
  | nil => intro a _; exact List.Pairwise.nil
  | cons q tl ih =>
    intro a hch
    obtain ⟨s, e⟩ := q
    obtain ⟨rfl, hae, hcut, htl⟩ := hch
    refine List.pairwise_cons.mpr ⟨?_, ih e htl⟩
    intro p hp
    exact (chainFrom_start_ge file tl e htl p hp).1

theorem chainFrom_coverage (file : List Nat) :
    ∀ (l : List (Nat × Nat)) (a : Nat), ChainFrom file a l →
      ∀ x, (∃ p ∈ l, p.1 ≤ x ∧ x < p.2) ↔ (a ≤ x ∧ x < file.length) := by
  intro l
  induction l with
  | nil =>
    intro a hch x
    have ha : a = file.length := hch
    constructor
    · intro hex
      obtain ⟨p, hp, _⟩ := hex
      exact absurd hp (List.not_mem_nil p)
    · intro hx
      omega
  | cons q tl ih =>
    intro a hch x
    obtain ⟨s, e⟩ := q
    obtain ⟨rfl, hae, hcut, htl⟩ := hch
    have heL : e ≤ file.length := hcut.1
    have htlcov := ih e htl x
    constructor
    · intro hex
      obtain ⟨p, hp, hx1, hx2⟩ := hex
      rcases List.mem_cons.mp hp with rfl | hp
      · omega
      · have := htlcov.mp ⟨p, hp, hx1, hx2⟩
        omega
    · intro hx
      by_cases hxe : x < e
      · exact ⟨(s, e), List.mem_cons_self _ _, by omega, hxe⟩
      · obtain ⟨p, hp, hx1, hx2⟩ := htlcov.mpr (by omega)
        exact ⟨p, List.mem_cons_of_mem _ hp, hx1, hx2⟩

/-- C4: every plan the planner returns consists of ranges that pairwise
do not overlap, appear in non-decreasing start order, and each have end
at least start. -/
theorem C4_plan_invariants (file : List Nat) (n : Int) (plan : List (Nat × Nat))
    (h : compute_segments file n = Except.ok plan) :
    List.Pairwise (fun p q => p.2 ≤ q.1) plan ∧
      List.Pairwise (fun p q => p.1 ≤ q.1) plan ∧
      ∀ p ∈ plan, p.1 ≤ p.2 := by
  have hch := plan_chain file n plan h
  have h1 := chainFrom_pairwise file plan 0 hch
  have h2 := chainFrom_start_ge file plan 0 hch
  refine ⟨h1, ?_, fun p hp => (h2 p hp).2⟩
  refine h1.imp_of_mem ?_
  intro p q hp hq hpq
  exact le_trans (h2 p hp).2 hpq

/-- C4 witness: the plan of the end-to-end example file with 3 segments. -/
theorem C4_witness :
    List.Pairwise (fun p q => p.2 ≤ q.1) c6Plan ∧
      List.Pairwise (fun p q => p.1 ≤ q.1) c6Plan ∧
      ∀ p ∈ c6Plan, p.1 ≤ p.2 :=
  C4_plan_invariants c6File 3 c6Plan (by rfl)

/-- C2 amended: whenever the planner returns a plan, the union of its
ranges is exactly the byte interval of the file, with no gaps. -/
theorem C2_amended_coverage (file : List Nat) (n : Int) (plan : List (Nat × Nat))
    (h : compute_segments file n = Except.ok plan) :
    ∀ x, (∃ p ∈ plan, p.1 ≤ x ∧ x < p.2) ↔ x < file.length := by
  intro x
  have := chainFrom_coverage file plan 0 (plan_chain file n plan h) x
  simpa using this

/-- C2 witness: coverage of byte 17 by the example plan. -/
theorem C2_witness :
    (∃ p ∈ c6Plan, p.1 ≤ 17 ∧ 17 < p.2) ↔ 17 < c6File.length :=
  C2_amended_coverage c6File 3 c6Plan (by rfl) 17

theorem decode_ascii : ∀ buf : List Nat, (∀ b ∈ buf, b < 128) →
    decodeUtf8Ignore buf = buf.map Char.ofNat := by
  intro buf
  induction buf with
  | nil => intro _; rfl
  | cons b rest ih =>
    intro h
    have hb : b < 128 := h b (List.mem_cons_self _ _)
    have hstep : decodeUtf8Ignore (b :: rest) = Char.ofNat b :: decodeUtf8Ignore rest := by
      rw [decodeUtf8Ignore.eq_def]
      simp [hb]
    rw [hstep, ih (fun x hx => h x (List.mem_cons_of_mem _ hx)), List.map_cons]

theorem tokenChar_lower_ascii :
    ∀ b < 128, isTokenChar (pyLower (Char.ofNat b)) = is_word_char b := by decide

theorem findWordsAux_append (ys : List Char) :
    ∀ (xs cur : List Char) (c : Char), xs.getLast? = some c → isTokenChar c = false →
      findWordsAux (xs ++ ys) cur = findWordsAux xs cur ++ findWordsAux ys [] := by
  intro xs
  induction xs with
  | nil =>
    intro cur c hc _
    exact absurd hc (by simp)
  | cons a tl ih =>
    intro cur c hc hcf
    cases tl with
    | nil =>
      obtain rfl : a = c := by simpa using hc
      have haf : ¬ isTokenChar a = true := by
        rw [hcf]
        exact Bool.false_ne_true
      rw [List.cons_append, List.nil_append, findWordsAux_cons, if_neg haf,
        findWordsAux_cons, if_neg haf, findWordsAux_nil]
      by_cases hce : cur.isEmpty
      · rw [if_pos hce, if_pos hce]
        simp
      · rw [if_neg hce, if_neg hce]
        simp
    | cons a2 tl2 =>
      have hlast2 : (a2 :: tl2).getLast? = some c := by
        rw [List.getLast?_cons_cons] at hc
        exact hc
      rw [List.cons_append, findWordsAux_cons, findWordsAux_cons]
      by_cases hw : isTokenChar a
      · rw [if_pos hw, if_pos hw]
        exact ih (a :: cur) c hlast2 hcf
      · rw [if_neg hw, if_neg hw]
        by_cases hce : cur.isEmpty
        · rw [if_pos hce, if_pos hce]
          exact ih [] c hlast2 hcf
        · rw [if_neg hce, if_neg hce, ih [] c hlast2 hcf]
          rfl

theorem tokenize_nil : tokenize [] = [] := rfl

theorem tokenize_append_of_cut (u v : List Nat)
    (hu : ∀ b ∈ u, b < 128) (hv : ∀ b ∈ v, b < 128)
    (hcut : u = [] ∨ ∃ b, u.getLast? = some b ∧ is_word_char b = false) :
    tokenize (u ++ v) = tokenize u ++ tokenize v := by
  rcases hcut with rfl | ⟨b, hb, hbf⟩
  · rw [List.nil_append, tokenize_nil, List.nil_append]
  · have huv : ∀ x ∈ u ++ v, x < 128 := by
      intro x hx
      rcases List.mem_append.mp hx with hx | hx
      · exact hu x hx
      · exact hv x hx
    have hlastu : (List.map pyLower (List.map Char.ofNat u)).getLast? =
        some (pyLower (Char.ofNat b)) := by
      rw [List.getLast?_map, List.getLast?_map, hb]
      rfl
    have hbu : b < 128 := hu b (List.mem_of_getLast?_eq_some hb)
    have hfalse : isTokenChar (pyLower (Char.ofNat b)) = false := by
      rw [tokenChar_lower_ascii b hbu, hbf]
    have hsplit : findWords (List.map pyLower (List.map Char.ofNat u) ++
          List.map pyLower (List.map Char.ofNat v)) =
        findWords (List.map pyLower (List.map Char.ofNat u)) ++
          findWords (List.map pyLower (List.map Char.ofNat v)) :=
      findWordsAux_append _ _ [] _ hlastu hfalse
    rw [tokenize, tokenize, tokenize, decode_ascii (u ++ v) huv, decode_ascii u hu,
      decode_ascii v hv, List.map_append, List.map_append, hsplit, List.map_append]

theorem sliceRange_append (file : List Nat) (a e : Nat) (hae : a ≤ e) :
    sliceRange file a e ++ file.drop e = file.drop a := by
  have h1 : file.drop e = (file.drop a).drop (e - a) := by
    rw [List.drop_drop]
    congr 1
    omega
  rw [sliceRange, h1, List.take_append_drop]

theorem sliceRange_getLast (file : List Nat) (a e : Nat) (hae : a < e)
    (heL : e ≤ file.length) :
    (sliceRange file a e).getLast? = file[e - 1]? := by
  have hlen : (sliceRange file a e).length = e - a := by
    rw [sliceRange, List.length_take, List.length_drop]
    omega
  rw [List.getLast?_eq_getElem?, hlen, sliceRange,
    List.getElem?_take_of_lt (by omega : e - a - 1 < e - a), List.getElem?_drop]
  congr 1
  omega

theorem sliceRange_ascii (file : List Nat) (a e : Nat) (h : ∀ b ∈ file, b < 128) :
    ∀ b ∈ sliceRange file a e, b < 128 := by
  intro b hb
  exact h b (List.take_subset _ _ (by exact hb) |> List.drop_subset a file)

theorem drop_ascii (file : List Nat) (e : Nat) (h : ∀ b ∈ file, b < 128) :
    ∀ b ∈ file.drop e, b < 128 :=
  fun b hb => h b (List.drop_subset e file hb)

theorem chainFrom_tokens (file : List Nat) (hascii : ∀ b ∈ file, b < 128) :
    ∀ (out : List (Nat × Nat)) (a : Nat), ChainFrom file a out →
      (out.map (fun p => tokenize (sliceRange file p.1 p.2))).flatten =
        tokenize (file.drop a) := by
  intro out
  induction out with
  | nil =>
    intro a ha
    have hd : file.drop a = [] := by
      rw [(ha : a = file.length)]
      exact List.drop_length file
    rw [hd, tokenize_nil]
    rfl
  | cons q tl ih =>
    intro a ha
    obtain ⟨s, e⟩ := q
    obtain ⟨rfl, hae, hcut, htl⟩ := ha
    have heL : e ≤ file.length := hcut.1
    rw [List.map_cons, List.flatten_cons, ih e htl]
    rw [← sliceRange_append file s e hae]
    by_cases haee : s = e
    · -- empty slice
      subst haee
      have hsl : sliceRange file s s = [] := by
        rw [sliceRange]
        simp
      rw [hsl, tokenize_nil, List.nil_append, List.nil_append]
    · by_cases heq : e = file.length
      · -- the tail of the file: the right-hand part is empty
        have hd : file.drop e = [] := by
          rw [heq]
          exact List.drop_length file
        rw [hd, List.append_nil, tokenize_nil, List.append_nil]
      · -- interior cut: the byte before the cut is not a word byte
        apply (tokenize_append_of_cut _ _ (sliceRange_ascii file s e hascii)
          (drop_ascii file e hascii) _).symm
        rcases hcut.2 with h0 | hL | hnw
        · omega
        · exact absurd hL heq
        · right
          refine ⟨file.getD (e - 1) 0, ?_, hnw⟩
          rw [sliceRange_getLast file s e (by omega) heL]
          exact getElem?_eq_some_getD file (e - 1) (by omega)

/-- C1 amended: for ASCII file content, concatenating the tokenizations
of the byte ranges of any plan the planner returns yields exactly the
tokenization of the whole file, in order: no word is split across ranges. -/
theorem C1_amended_no_split (file : List Nat) (n : Int) (plan : List (Nat × Nat))
    (hascii : ∀ b ∈ file, b < 128)
    (h : compute_segments file n = Except.ok plan) :
    (plan.map (fun p => tokenize (sliceRange file p.1 p.2))).flatten = tokenize file := by
  have := chainFrom_tokens file hascii plan 0 (plan_chain file n plan h)
  simpa using this

/-- C1 witness: the end-to-end example file, split three ways. -/
theorem C1_witness :
    (c6Plan.map (fun p => tokenize (sliceRange c6File p.1 p.2))).flatten = tokenize c6File :=
  C1_amended_no_split c6File 3 c6Plan (by decide) (by rfl)
